import Mathlib

/-!
Verification of the symbol-candle cache and fetch-coalescing layer of the
juno dashboard.

The layer under study consists of:
* a module-level cache and `fetchCandles`/`composeKey` (hook variant), and
* the `Chandler` class with `fetchCandles`/`getKey` (class variant),
both of which partition a query's symbols into cache hits and misses, issue at
most one batched request for the misses, write the response back into the
cache, and return a combined per-symbol result, plus
* the wire naming translation `camelToSnakeReplacer` / `snakeToCamelReviver`
used by `fetchJson`.

JavaScript objects used as string-keyed dictionaries (the candle cache and the
per-call result object) are embedded as functions `String → Option α`; the
candle series stored under a symbol is an opaque payload `α` at this layer.
The provider (`fetchJson('POST', '/candles', …)`) is embedded as an explicit
function from the request object to either a transport error or the list of
entries of the response object (`Object.entries` order), and `fetchCandles`
is written in state-passing style over the cache, additionally recording the
list of network requests it issued.
-/

/-- A JS object used as a dictionary with string keys: total map from keys to
optional values (`none` = property absent, as `candleCache[key]` yields
`undefined`). -/
def JsDict (α : Type) : Type := String → Option α

/-- Property read `dict[key]`. -/
def JsDict.get (d : JsDict α) (k : String) : Option α := d k

/-- Property write `dict[key] = v`: unconditional overwrite. -/
def JsDict.put (d : JsDict α) (k : String) (v : α) : JsDict α :=
  fun k' => if k' = k then some v else d k'

/-- The empty object `{}`. -/
def JsDict.empty : JsDict α := fun _ => none

/-- The argument object of `fetchCandles`:
`{ exchange, interval, start, end, symbols }`.  `end` is a Lean keyword, so
the field is called `end_`. -/
structure Query where
  exchange : String
  interval : String
  start : String
  end_ : String
  symbols : List String

/-- Hook variant (`composeKey`): the template literal
``` `${args.exchange}_${args.intervals}_${symbol}_${args.start}_${args.end}` ```.
The source reads `args.intervals`, a property that does not exist on the
argument object (the field is `interval`), so JavaScript interpolates the
string `"undefined"` in that slot. -/
def composeKey (args : Query) (symbol : String) : String :=
  args.exchange ++ "_" ++ "undefined" ++ "_" ++ symbol ++ "_" ++ args.start ++ "_" ++ args.end_

/-- Class variant (`getKey`): textually the same template literal as
`composeKey`, with the same `args.intervals` read. -/
def getKey (args : Query) (symbol : String) : String :=
  args.exchange ++ "_" ++ "undefined" ++ "_" ++ symbol ++ "_" ++ args.start ++ "_" ++ args.end_

theorem getKey_eq_composeKey (args : Query) (symbol : String) :
    getKey args symbol = composeKey args symbol := rfl

/-- One iteration of the first loop of `fetchCandles`: probe the cache for
the symbol's key; on a hit do `result[symbol] = candles`, on a miss do
`missingSymbols.push(symbol)`.  The accumulator carries `(result,
missingSymbols)`. -/
def scanStep (cache : JsDict α) (args : Query)
    (acc : JsDict α × List String) (symbol : String) : JsDict α × List String :=
  match cache.get (composeKey args symbol) with
  | none => (acc.1, acc.2 ++ [symbol])
  | some candles => (acc.1.put symbol candles, acc.2)

/-- The whole first loop of `fetchCandles`, starting from
`result = {}; missingSymbols = []`. -/
def scan (cache : JsDict α) (args : Query) : JsDict α × List String :=
  args.symbols.foldl (scanStep cache args) (JsDict.empty, [])

/-- The request object `{ exchange, interval, start, end, symbols }` passed
to `fetchJson('POST', '/candles', …)`.  Note it reads `args.interval`
(correctly, unlike the key functions). -/
structure FetchRequest where
  exchange : String
  interval : String
  start : String
  end_ : String
  symbols : List String
deriving DecidableEq

/-- Builds the request body for the missing symbols. -/
def mkRequest (args : Query) (missingSymbols : List String) : FetchRequest :=
  ⟨args.exchange, args.interval, args.start, args.end_, missingSymbols⟩

/-- The second loop of `fetchCandles`: for each `[symbol, candles]` of
`Object.entries(missingCandles)`, do `result[symbol] = candles` and
`candleCache[composeKey(args, symbol)] = candles`. -/
def writeEntries (args : Query) (acc : JsDict α × JsDict α) :
    List (String × α) → JsDict α × JsDict α
  | [] => acc
  | (symbol, candles) :: rest =>
      writeEntries args
        (acc.1.put symbol candles, acc.2.put (composeKey args symbol) candles) rest

/-- Outcome of one `fetchCandles` call: the returned result object (or the
propagated transport error), the cache state after the call, and the list of
network requests the call issued. -/
structure FetchOutcome (ε α : Type) where
  result : Except ε (JsDict α)
  cache : JsDict α
  requests : List FetchRequest

/-- `fetchCandles` (hook variant; `Chandler.fetchCandles` is the identical
algorithm with `this.candles` as the cache and `getKey` in place of
`composeKey`, and `getKey = composeKey` by `getKey_eq_composeKey`).
The provider argument embeds the `fetchJson('POST', '/candles', body)` call:
it maps the request body to a transport error or to the entries of the
response object.  A transport error propagates out of the whole call; the
cache writes happen only after the awaited fetch succeeds. -/
def fetchCandles (provider : FetchRequest → Except ε (List (String × α)))
    (cache : JsDict α) (args : Query) : FetchOutcome ε α :=
  let scanned := scan cache args
  if scanned.2.length > 0 then
    let req := mkRequest args scanned.2
    match provider req with
    | .error e => ⟨.error e, cache, [req]⟩
    | .ok entries =>
        let written := writeEntries args (scanned.1, cache) entries
        ⟨.ok written.1, written.2, [req]⟩
  else ⟨.ok scanned.1, cache, []⟩

/-- Reading key `k` from the JS object whose entry list is `es` (later
entries overwrite earlier ones). -/
def lookupLast (es : List (String × α)) (k : String) : Option α :=
  es.foldl (fun acc p => if p.1 = k then some p.2 else acc) none

/-- The miss list computed against a given cache: symbols of the query whose
composed key is absent. -/
def missOf (cache : JsDict α) (args : Query) : List String :=
  args.symbols.filter fun s => (cache.get (composeKey args s)).isNone

theorem lookupLast_foldl_shift (es : List (String × α)) (k : String) (a : Option α) :
    es.foldl (fun acc p => if p.1 = k then some p.2 else acc) a
      = (lookupLast es k).or a := by
  induction es generalizing a with
  | nil => simp [lookupLast]
  | cons q es ih =>
    have hr : lookupLast (q :: es) k
        = es.foldl (fun acc p => if p.1 = k then some p.2 else acc)
            (if q.1 = k then some q.2 else none) := rfl
    rw [List.foldl_cons, ih, hr, ih]
    by_cases hq : q.1 = k <;> simp [hq, Option.or_assoc]

theorem lookupLast_cons (q : String × α) (es : List (String × α)) (k : String) :
    lookupLast (q :: es) k
      = (lookupLast es k).or (if q.1 = k then some q.2 else none) := by
  rw [lookupLast, List.foldl_cons, lookupLast_foldl_shift]

theorem lookupLast_isSome (es : List (String × α)) (k : String) :
    (lookupLast es k).isSome ↔ k ∈ es.map Prod.fst := by
  induction es with
  | nil => simp [lookupLast]
  | cons q es ih =>
    rw [lookupLast_cons]
    by_cases hq : q.1 = k
    · simp [hq]
    · have hq' : ¬k = q.1 := fun h => hq h.symm
      simp [hq, hq', ih]

theorem lookupLast_eq_none (es : List (String × α)) (k : String) :
    lookupLast es k = none ↔ k ∉ es.map Prod.fst := by
  rw [← lookupLast_isSome, Option.isSome_iff_exists]
  cases lookupLast es k <;> simp

theorem scan_foldl_characterization (cache : JsDict α) (args : Query)
    (syms : List String) (r : JsDict α) (miss : List String) :
    (syms.foldl (scanStep cache args) (r, miss)).2
        = miss ++ syms.filter (fun s => (cache.get (composeKey args s)).isNone) ∧
      ∀ s, (syms.foldl (scanStep cache args) (r, miss)).1 s
        = if s ∈ syms ∧ (cache.get (composeKey args s)).isSome
          then cache.get (composeKey args s) else r s := by
  induction syms generalizing r miss with
  | nil => simp
  | cons c syms ih =>
    rw [List.foldl_cons]
    cases hc : cache.get (composeKey args c) with
    | none =>
      have step : scanStep cache args (r, miss) c = (r, miss ++ [c]) := by
        simp [scanStep, hc]
      rw [step]
      obtain ⟨ih2, ih1⟩ := ih r (miss ++ [c])
      refine ⟨by rw [ih2]; simp [List.filter_cons, hc], fun s => ?_⟩
      rw [ih1 s]
      by_cases hs : s = c
      · subst hs
        by_cases hmem : s ∈ syms <;> simp [hmem, hc]
      · simp [hs]
    | some v =>
      have step : scanStep cache args (r, miss) c = (r.put c v, miss) := by
        simp [scanStep, hc]
      rw [step]
      obtain ⟨ih2, ih1⟩ := ih (r.put c v) miss
      refine ⟨by rw [ih2]; simp [List.filter_cons, hc], fun s => ?_⟩
      rw [ih1 s]
      by_cases hs : s = c
      · subst hs
        by_cases hmem : s ∈ syms <;> simp [hmem, hc, JsDict.put]
      · by_cases hmem : s ∈ syms <;> simp [hs, hmem, JsDict.put]

theorem scan_snd (cache : JsDict α) (args : Query) :
    (scan cache args).2 = missOf cache args := by
  rw [scan, (scan_foldl_characterization cache args args.symbols JsDict.empty []).1]
  simp [missOf]

theorem scan_fst (cache : JsDict α) (args : Query) (s : String) :
    (scan cache args).1 s
      = if s ∈ args.symbols then cache.get (composeKey args s) else none := by
  rw [scan, (scan_foldl_characterization cache args args.symbols JsDict.empty []).2 s]
  by_cases hmem : s ∈ args.symbols
  · cases hc : cache.get (composeKey args s) <;> simp [hmem, hc, JsDict.empty]
  · simp [hmem, JsDict.empty]

theorem writeEntries_characterization (args : Query) (es : List (String × α))
    (r c : JsDict α) :
    (∀ s, (writeEntries args (r, c) es).1 s = (lookupLast es s).or (r s)) ∧
      ∀ k, (writeEntries args (r, c) es).2 k
        = (lookupLast (es.map fun p => (composeKey args p.1, p.2)) k).or (c k) := by
  induction es generalizing r c with
  | nil => simp [writeEntries, lookupLast]
  | cons q es ih =>
    obtain ⟨sym, v⟩ := q
    rw [writeEntries]
    obtain ⟨ih1, ih2⟩ := ih (r.put sym v) (c.put (composeKey args sym) v)
    constructor
    · intro s
      rw [ih1 s, lookupLast_cons]
      by_cases hs : s = sym
      · subst hs
        simp [JsDict.put, Option.or_assoc]
      · have hs' : ¬sym = s := fun h => hs h.symm
        simp [hs, hs', JsDict.put, Option.or_assoc]
    · intro k
      rw [ih2 k, List.map_cons, lookupLast_cons]
      by_cases hk : k = composeKey args sym
      · subst hk
        simp [JsDict.put, Option.or_assoc]
      · have hk' : ¬composeKey args sym = k := fun h => hk h.symm
        simp [hk, hk', JsDict.put, Option.or_assoc]


theorem fetchCandles_of_no_miss {ε α : Type}
    (provider : FetchRequest → Except ε (List (String × α)))
    (cache : JsDict α) (args : Query) (h : missOf cache args = []) :
    fetchCandles provider cache args = ⟨.ok (scan cache args).1, cache, []⟩ := by
  have h2 : (scan cache args).2 = [] := by rw [scan_snd, h]
  simp [fetchCandles, h2]

theorem fetchCandles_of_miss_error {ε α : Type}
    (provider : FetchRequest → Except ε (List (String × α)))
    (cache : JsDict α) (args : Query) (e : ε) (h : missOf cache args ≠ [])
    (he : provider (mkRequest args (missOf cache args)) = .error e) :
    fetchCandles provider cache args
      = ⟨.error e, cache, [mkRequest args (missOf cache args)]⟩ := by
  have h2 : (scan cache args).2 = missOf cache args := scan_snd cache args
  have hlen : (scan cache args).2.length > 0 := by
    rw [h2]
    exact List.length_pos.mpr h
  simp only [fetchCandles, h2, he]
  rw [if_pos (List.length_pos.mpr h)]

theorem fetchCandles_of_miss_ok {ε α : Type}
    (provider : FetchRequest → Except ε (List (String × α)))
    (cache : JsDict α) (args : Query) (entries : List (String × α))
    (h : missOf cache args ≠ [])
    (he : provider (mkRequest args (missOf cache args)) = .ok entries) :
    fetchCandles provider cache args
      = ⟨.ok (writeEntries args ((scan cache args).1, cache) entries).1,
          (writeEntries args ((scan cache args).1, cache) entries).2,
          [mkRequest args (missOf cache args)]⟩ := by
  have h2 : (scan cache args).2 = missOf cache args := scan_snd cache args
  have hlen : (scan cache args).2.length > 0 := by
    rw [h2]
    exact List.length_pos.mpr h
  simp only [fetchCandles, h2, he]
  rw [if_pos (List.length_pos.mpr h)]

theorem fetchCandles_requests_eq {ε α : Type}
    (provider : FetchRequest → Except ε (List (String × α)))
    (cache : JsDict α) (args : Query) :
    (fetchCandles provider cache args).requests
      = if missOf cache args = [] then []
        else [mkRequest args (missOf cache args)] := by
  by_cases h : missOf cache args = []
  · rw [fetchCandles_of_no_miss provider cache args h, if_pos h]
  · rw [if_neg h]
    cases he : provider (mkRequest args (missOf cache args)) with
    | error e => rw [fetchCandles_of_miss_error provider cache args e h he]
    | ok entries => rw [fetchCandles_of_miss_ok provider cache args entries h he]

theorem fetchCandles_cache_get_of_ok {ε α : Type}
    (provider : FetchRequest → Except ε (List (String × α)))
    (cache : JsDict α) (args : Query) (entries : List (String × α))
    (h : missOf cache args ≠ [])
    (he : provider (mkRequest args (missOf cache args)) = .ok entries) (k : String) :
    ((fetchCandles provider cache args).cache).get k
      = (lookupLast (entries.map fun p => (composeKey args p.1, p.2)) k).or
          (cache.get k) := by
  rw [fetchCandles_of_miss_ok provider cache args entries h he]
  exact (writeEntries_characterization args entries (scan cache args).1 cache).2 k

theorem mem_missOf {α : Type} (cache : JsDict α) (args : Query) (s : String) :
    s ∈ missOf cache args
      ↔ s ∈ args.symbols ∧ cache.get (composeKey args s) = none := by
  simp [missOf, Option.isNone_iff_eq_none]

/-- C8: the cache write `candleCache[key] = series` (embedded as
`JsDict.put`) is an unconditional overwrite; writing the same key and series
twice leaves the store exactly as writing it once, and a subsequent lookup of
that key returns that series. -/
theorem c8_cache_put_idempotent_overwrite {α : Type}
    (cache : JsDict α) (key : String) (series : α) :
    (cache.put key series).put key series = cache.put key series ∧
      ((cache.put key series).put key series).get key = some series ∧
      (cache.put key series).get key = some series := by
  refine ⟨?_, by simp [JsDict.put, JsDict.get], by simp [JsDict.put, JsDict.get]⟩
  funext k'
  by_cases h : k' = key <;> simp [JsDict.put, h]

/-- C4: one `fetchCandles` call issues at most one batched network request;
it issues none when every requested symbol's key is in the cache, and
otherwise exactly one request carrying the query fields and precisely the
subset of requested symbols whose composed keys were absent (`missOf`). -/
theorem c4_at_most_one_batched_request {ε α : Type}
    (provider : FetchRequest → Except ε (List (String × α)))
    (cache : JsDict α) (args : Query) :
    (fetchCandles provider cache args).requests
      = if missOf cache args = [] then []
        else [mkRequest args (missOf cache args)] :=
  fetchCandles_requests_eq provider cache args

/-- C5: if the batched fetch raises a transport error, the whole
`fetchCandles` call fails with that error and the cache is left exactly as it
was — no entry is added, removed or modified. -/
theorem c5_transport_failure_no_partial_writes {ε α : Type}
    (provider : FetchRequest → Except ε (List (String × α)))
    (cache : JsDict α) (args : Query) (e : ε)
    (hmiss : missOf cache args ≠ [])
    (herr : provider (mkRequest args (missOf cache args)) = .error e) :
    (fetchCandles provider cache args).result = .error e ∧
      (fetchCandles provider cache args).cache = cache := by
  rw [fetchCandles_of_miss_error provider cache args e hmiss herr]
  exact ⟨rfl, rfl⟩

theorem c5_transport_failure_no_partial_writes_witness :
    let args : Query := ⟨"binance", "1d", "2020-01-01", "2020-02-01", ["eth-btc"]⟩
    let provider : FetchRequest → Except String (List (String × Nat)) :=
      fun _ => .error "network down"
    (fetchCandles provider JsDict.empty args).result = .error "network down" ∧
      (fetchCandles provider JsDict.empty args).cache = JsDict.empty :=
  c5_transport_failure_no_partial_writes _ JsDict.empty _ "network down"
    (by decide) rfl

/-- C1: the key functions are NOT injective in the interval component: both
`composeKey` and `getKey` interpolate the nonexistent property
`args.intervals` (the field is `interval`), so for two queries differing only
in the interval the composed keys coincide.  This theorem exhibits the
failure of the claimed injectivity at a concrete input. -/
theorem c1_interval_ignored_by_key :
    (Query.mk "binance" "1d" "2020-01-01" "2020-02-01" ["eth-btc"]).interval
        ≠ (Query.mk "binance" "1h" "2020-01-01" "2020-02-01" ["eth-btc"]).interval ∧
      composeKey (Query.mk "binance" "1d" "2020-01-01" "2020-02-01" ["eth-btc"]) "eth-btc"
        = composeKey (Query.mk "binance" "1h" "2020-01-01" "2020-02-01" ["eth-btc"]) "eth-btc" ∧
      getKey (Query.mk "binance" "1d" "2020-01-01" "2020-02-01" ["eth-btc"]) "eth-btc"
        = getKey (Query.mk "binance" "1h" "2020-01-01" "2020-02-01" ["eth-btc"]) "eth-btc" :=
  ⟨by decide, rfl, rfl⟩

theorem not_isNone_iff_isSome {α : Type} (o : Option α) :
    ¬(o.isNone = true) ↔ o.isSome := by
  cases o <;> simp

theorem missOf_eq_nil_iff {α : Type} (cache : JsDict α) (args : Query) :
    missOf cache args = []
      ↔ ∀ s ∈ args.symbols, (cache.get (composeKey args s)).isSome := by
  rw [missOf, List.filter_eq_nil_iff]
  constructor
  · intro h s hs
    exact (not_isNone_iff_isSome _).mp (h s hs)
  · intro h s hs
    exact (not_isNone_iff_isSome _).mpr (h s hs)

theorem lookupLast_mapped_isSome {α : Type} (args : Query)
    (entries : List (String × α)) (s : String) (hs : s ∈ entries.map Prod.fst) :
    (lookupLast (entries.map fun p => (composeKey args p.1, p.2))
        (composeKey args s)).isSome := by
  rw [lookupLast_isSome, List.map_map]
  obtain ⟨p, hp, rfl⟩ := List.mem_map.mp hs
  exact List.mem_map.mpr ⟨p, hp, rfl⟩

theorem lookupLast_mapped_eq_none {α : Type} (args : Query)
    (entries : List (String × α)) (k : String)
    (h : ∀ s ∈ entries.map Prod.fst, composeKey args s ≠ k) :
    lookupLast (entries.map fun p => (composeKey args p.1, p.2)) k = none := by
  rw [lookupLast_eq_none, List.map_map]
  intro hk
  obtain ⟨p, hp, hpk⟩ := List.mem_map.mp hk
  exact h p.1 (List.mem_map.mpr ⟨p, hp, rfl⟩) hpk

/-- C2: once a `fetchCandles` call for a query has completed with a provider
response covering every missing symbol and stored its results, a second call
for the identical query issues no network request at all: across the two
calls exactly one batched fetch is issued in total. -/
theorem c2_cache_hit_elision {ε α : Type}
    (provider : FetchRequest → Except ε (List (String × α)))
    (cache : JsDict α) (args : Query) (entries : List (String × α))
    (hok : provider (mkRequest args (missOf cache args)) = .ok entries)
    (hcov : ∀ s ∈ missOf cache args, s ∈ entries.map Prod.fst)
    (hmiss : missOf cache args ≠ []) :
    (fetchCandles provider cache args).requests.length
        + (fetchCandles provider (fetchCandles provider cache args).cache
            args).requests.length
      = 1 := by
  have hreq1 : (fetchCandles provider cache args).requests
      = [mkRequest args (missOf cache args)] := by
    rw [fetchCandles_requests_eq, if_neg hmiss]
  have hmiss2 : missOf (fetchCandles provider cache args).cache args = [] := by
    rw [missOf_eq_nil_iff]
    intro s hs
    rw [fetchCandles_cache_get_of_ok provider cache args entries hmiss hok,
      Option.isSome_or]
    cases hc : cache.get (composeKey args s) with
    | some v => simp
    | none =>
      have hmem : s ∈ missOf cache args := (mem_missOf cache args s).mpr ⟨hs, hc⟩
      simp [lookupLast_mapped_isSome args entries s (hcov s hmem)]
  have hreq2 : (fetchCandles provider (fetchCandles provider cache args).cache
      args).requests = [] := by
    rw [fetchCandles_requests_eq, if_pos hmiss2]
  rw [hreq1, hreq2]
  rfl

theorem c2_cache_hit_elision_witness :
    let args : Query := ⟨"binance", "1d", "2020-01-01", "2020-02-01",
      ["eth-btc", "ltc-btc"]⟩
    let provider : FetchRequest → Except Unit (List (String × Nat)) :=
      fun _ => .ok [("eth-btc", 1), ("ltc-btc", 2)]
    (fetchCandles provider JsDict.empty args).requests.length
        + (fetchCandles provider (fetchCandles provider JsDict.empty args).cache
            args).requests.length
      = 1 :=
  c2_cache_hit_elision _ JsDict.empty _ [("eth-btc", 1), ("ltc-btc", 2)]
    rfl (by decide) (by decide)

/-- C3: when the provider's response maps exactly the missing symbols, the
returned result object covers exactly the requested symbol set: every cache
hit is returned with its cached series unchanged and every missing symbol
with the series from the provider response. -/
theorem c3_result_exactly_requested {ε α : Type}
    (provider : FetchRequest → Except ε (List (String × α)))
    (cache : JsDict α) (args : Query) (entries : List (String × α))
    (hok : provider (mkRequest args (missOf cache args)) = .ok entries)
    (hsub : ∀ s ∈ entries.map Prod.fst, s ∈ missOf cache args)
    (hsup : ∀ s ∈ missOf cache args, s ∈ entries.map Prod.fst) :
    ∃ r, (fetchCandles provider cache args).result = .ok r ∧
      (∀ s, (r s).isSome ↔ s ∈ args.symbols) ∧
      (∀ s ∈ args.symbols, (cache.get (composeKey args s)).isSome →
          r s = cache.get (composeKey args s)) ∧
      (∀ s ∈ args.symbols, cache.get (composeKey args s) = none →
          r s = lookupLast entries s) := by
  by_cases hmiss : missOf cache args = []
  · have hall := (missOf_eq_nil_iff cache args).mp hmiss
    refine ⟨(scan cache args).1,
      by rw [fetchCandles_of_no_miss provider cache args hmiss], ?_, ?_, ?_⟩
    · intro s
      rw [scan_fst]
      by_cases hs : s ∈ args.symbols
      · rw [if_pos hs]
        exact ⟨fun _ => hs, fun _ => hall s hs⟩
      · simp [hs]
    · intro s hs _
      rw [scan_fst, if_pos hs]
    · intro s hs hnone
      have := hall s hs
      rw [hnone] at this
      cases this
  · refine ⟨(writeEntries args ((scan cache args).1, cache) entries).1,
      by rw [fetchCandles_of_miss_ok provider cache args entries hmiss hok],
      ?_, ?_, ?_⟩
    all_goals
      have hchar := (writeEntries_characterization args entries
        (scan cache args).1 cache).1
    · intro s
      rw [hchar s, scan_fst, Option.isSome_or]
      constructor
      · intro h
        rcases Bool.or_eq_true_iff.mp h with h1 | h2
        · have hmem := hsub s ((lookupLast_isSome entries s).mp h1)
          exact ((mem_missOf cache args s).mp hmem).1
        · by_cases hs : s ∈ args.symbols
          · exact hs
          · rw [if_neg hs] at h2
            cases h2
      · intro hs
        cases hc : cache.get (composeKey args s) with
        | some v => simp [if_pos hs, hc]
        | none =>
          have hmem : s ∈ missOf cache args :=
            (mem_missOf cache args s).mpr ⟨hs, hc⟩
          simp [(lookupLast_isSome entries s).mpr (hsup s hmem)]
    · intro s hs hsome
      have hnl : lookupLast entries s = none := by
        rw [lookupLast_eq_none]
        intro hmem
        have := ((mem_missOf cache args s).mp (hsub s hmem)).2
        rw [this] at hsome
        cases hsome
      rw [hchar s, hnl, Option.none_or, scan_fst, if_pos hs]
    · intro s hs hnone
      have hm : (if s ∈ args.symbols then cache.get (composeKey args s)
          else none) = none := by
        rw [if_pos hs, hnone]
      rw [hchar s, scan_fst, hm, Option.or_none]

theorem c3_result_exactly_requested_witness :
    let args : Query := ⟨"binance", "1d", "2020-01-01", "2020-02-01",
      ["eth-btc", "ltc-btc"]⟩
    let cache : JsDict Nat := JsDict.empty.put (composeKey args "eth-btc") 7
    let provider : FetchRequest → Except Unit (List (String × Nat)) :=
      fun _ => .ok [("ltc-btc", 9)]
    ∃ r, (fetchCandles provider cache args).result = .ok r ∧
      (∀ s, (r s).isSome ↔ s ∈ args.symbols) ∧
      (∀ s ∈ args.symbols, (cache.get (composeKey args s)).isSome →
          r s = cache.get (composeKey args s)) ∧
      (∀ s ∈ args.symbols, cache.get (composeKey args s) = none →
          r s = lookupLast [("ltc-btc", 9)] s) :=
  c3_result_exactly_requested _ _ _ [("ltc-btc", 9)] rfl (by decide) (by decide)

/-- C7: a `fetchCandles` call whose provider response maps only missing
symbols preserves every cache entry present before the call (hits are never
overwritten) and can only grow the cache's key set; nothing is ever
deleted. -/
theorem c7_cache_only_grows {ε α : Type}
    (provider : FetchRequest → Except ε (List (String × α)))
    (cache : JsDict α) (args : Query)
    (hdom : ∀ entries,
        provider (mkRequest args (missOf cache args)) = .ok entries →
        ∀ s ∈ entries.map Prod.fst, s ∈ missOf cache args) :
    (∀ k v, cache.get k = some v →
        ((fetchCandles provider cache args).cache).get k = some v) ∧
      ∀ k, (cache.get k).isSome →
        (((fetchCandles provider cache args).cache).get k).isSome := by
  have main : ∀ k v, cache.get k = some v →
      ((fetchCandles provider cache args).cache).get k = some v := by
    intro k v hv
    by_cases hmiss : missOf cache args = []
    · rw [fetchCandles_of_no_miss provider cache args hmiss]
      exact hv
    · cases he : provider (mkRequest args (missOf cache args)) with
      | error e =>
        rw [fetchCandles_of_miss_error provider cache args e hmiss he]
        exact hv
      | ok entries =>
        rw [fetchCandles_cache_get_of_ok provider cache args entries hmiss he]
        have hnone : lookupLast
            (entries.map fun p => (composeKey args p.1, p.2)) k = none := by
          apply lookupLast_mapped_eq_none
          intro s hs hk
          have hmem := (mem_missOf cache args s).mp (hdom entries he s hs)
          rw [hk] at hmem
          rw [hmem.2] at hv
          cases hv
        rw [hnone, Option.none_or]
        exact hv
  refine ⟨main, fun k hk => ?_⟩
  obtain ⟨v, hv⟩ := Option.isSome_iff_exists.mp hk
  rw [main k v hv]
  rfl

theorem c7_cache_only_grows_witness :
    let args : Query := ⟨"binance", "1d", "2020-01-01", "2020-02-01",
      ["eth-btc", "ltc-btc"]⟩
    let cache : JsDict Nat := JsDict.empty.put (composeKey args "eth-btc") 7
    let provider : FetchRequest → Except Unit (List (String × Nat)) :=
      fun _ => .ok [("ltc-btc", 3)]
    ((fetchCandles provider cache args).cache).get (composeKey args "eth-btc")
      = some 7 :=
  (c7_cache_only_grows _ _ _
      (by intro entries he s hs; cases he; revert s hs; decide)).1
    _ 7 (by decide)

/-- C10: `fetchCandles` trusts the provider response wholesale.  After a
successful fetch the result's key set is exactly the cache-hit symbols
united with the domain of the response: a requested symbol omitted from the
response is silently absent (no error is raised), and a symbol present in
the response but never requested is still added to both the result and the
cache. -/
theorem c10_provider_response_trusted {ε α : Type}
    (provider : FetchRequest → Except ε (List (String × α)))
    (cache : JsDict α) (args : Query) (entries : List (String × α))
    (hok : provider (mkRequest args (missOf cache args)) = .ok entries)
    (hmiss : missOf cache args ≠ []) :
    ∃ r, (fetchCandles provider cache args).result = .ok r ∧
      (∀ s, (r s).isSome ↔
          (s ∈ args.symbols ∧ (cache.get (composeKey args s)).isSome)
            ∨ s ∈ entries.map Prod.fst) ∧
      ∀ s ∈ entries.map Prod.fst,
        r s = lookupLast entries s ∧
          (((fetchCandles provider cache args).cache).get
              (composeKey args s)).isSome := by
  have hchar := (writeEntries_characterization args entries
    (scan cache args).1 cache).1
  refine ⟨(writeEntries args ((scan cache args).1, cache) entries).1,
    by rw [fetchCandles_of_miss_ok provider cache args entries hmiss hok],
    ?_, ?_⟩
  · intro s
    rw [hchar s, scan_fst, Option.isSome_or]
    by_cases hs : s ∈ args.symbols
    · simp [Bool.or_eq_true_iff, lookupLast_isSome, hs, or_comm]
    · simp [Bool.or_eq_true_iff, lookupLast_isSome, hs]
  · intro s hsmem
    have hl := (lookupLast_isSome entries s).mpr hsmem
    obtain ⟨v, hv⟩ := Option.isSome_iff_exists.mp hl
    constructor
    · rw [hchar s, hv, Option.or_some]
    · rw [fetchCandles_cache_get_of_ok provider cache args entries hmiss hok,
        Option.isSome_or]
      simp [lookupLast_mapped_isSome args entries s hsmem]

theorem c10_provider_response_trusted_witness :
    let args : Query := ⟨"binance", "1d", "2020-01-01", "2020-02-01",
      ["eth-btc", "ltc-btc"]⟩
    let provider : FetchRequest → Except Unit (List (String × Nat)) :=
      fun _ => .ok [("xmr-btc", 5)]
    let cache : JsDict Nat := JsDict.empty
    ∃ r, (fetchCandles provider cache args).result = .ok r ∧
      (∀ s, (r s).isSome ↔
          (s ∈ args.symbols ∧ (cache.get (composeKey args s)).isSome)
            ∨ s ∈ List.map Prod.fst [("xmr-btc", (5 : Nat))]) ∧
      ∀ s ∈ List.map Prod.fst [("xmr-btc", (5 : Nat))],
        r s = lookupLast [("xmr-btc", 5)] s ∧
          (((fetchCandles provider cache args).cache).get
              (composeKey args s)).isSome :=
  c10_provider_response_trusted _ JsDict.empty _ [("xmr-btc", 5)]
    rfl (by decide)

theorem append_underscore_inj : ∀ (a b x y : List Char), '_' ∉ a → '_' ∉ b →
    a ++ '_' :: x = b ++ '_' :: y → a = b ∧ x = y := by
  intro a
  induction a with
  | nil =>
    intro b x y _ hb h
    cases b with
    | nil => simpa using h
    | cons d b =>
      simp only [List.nil_append, List.cons_append, List.cons.injEq] at h
      obtain ⟨rfl, -⟩ := h
      exact absurd (List.mem_cons_self _ _) hb
  | cons c a ih =>
    intro b x y ha hb h
    cases b with
    | nil =>
      simp only [List.cons_append, List.nil_append, List.cons.injEq] at h
      obtain ⟨rfl, -⟩ := h
      exact absurd (List.mem_cons_self _ _) ha
    | cons d b =>
      simp only [List.cons_append, List.cons.injEq] at h
      obtain ⟨rfl, htail⟩ := h
      have ha' : '_' ∉ a := fun hm => ha (List.mem_cons_of_mem _ hm)
      have hb' : '_' ∉ b := fun hm => hb (List.mem_cons_of_mem _ hm)
      obtain ⟨rfl, rfl⟩ := ih b x y ha' hb' htail
      exact ⟨rfl, rfl⟩

theorem composeKey_data (args : Query) (symbol : String) :
    (composeKey args symbol).data
      = args.exchange.data ++ '_' :: ("undefined".data ++ '_' ::
          (symbol.data ++ '_' :: (args.start.data ++ '_' :: args.end_.data))) := by
  simp [composeKey, List.append_assoc]

theorem composeKey_symbol_end_inj (q1 q2 : Query) (s1 s2 : String)
    (hex : q2.exchange = q1.exchange) (hst : q2.start = q1.start)
    (hs1 : '_' ∉ s1.data) (hs2 : '_' ∉ s2.data)
    (h : composeKey q1 s1 = composeKey q2 s2) : s1 = s2 ∧ q1.end_ = q2.end_ := by
  have hd := congrArg String.data h
  rw [composeKey_data, composeKey_data, hex, hst] at hd
  have h1 := List.append_cancel_left hd
  have h2 := List.append_cancel_left (List.cons.inj h1).2
  have h3 := (List.cons.inj h2).2
  obtain ⟨hsym, hrest⟩ := append_underscore_inj s1.data s2.data _ _ hs1 hs2 h3
  have h4 := (List.cons.inj (List.append_cancel_left hrest)).2
  exact ⟨String.ext hsym, String.ext h4⟩

/-- C6: two queries identical in every field except `end` yield distinct
cache keys for every pair of (separator-free) symbols, under either key
function; consequently, after resolving the first query from an empty cache,
resolving the second still issues a batched fetch for all of its symbols. -/
theorem c6_end_field_cache_independent {ε α : Type}
    (provider provider2 : FetchRequest → Except ε (List (String × α)))
    (q1 q2 : Query) (entries : List (String × α))
    (hex : q2.exchange = q1.exchange) (hint : q2.interval = q1.interval)
    (hst : q2.start = q1.start) (hsym : q2.symbols = q1.symbols)
    (hend : q1.end_ ≠ q2.end_)
    (hfree : ∀ s ∈ q1.symbols, '_' ∉ s.data)
    (hdom : ∀ s ∈ entries.map Prod.fst, s ∈ q1.symbols)
    (hok : provider (mkRequest q1 (missOf (JsDict.empty : JsDict α) q1))
        = .ok entries)
    (hne : q2.symbols ≠ []) :
    (∀ s1 s2, '_' ∉ s1.data → '_' ∉ s2.data →
        composeKey q1 s1 ≠ composeKey q2 s2 ∧ getKey q1 s1 ≠ getKey q2 s2) ∧
      (fetchCandles provider2
          (fetchCandles provider JsDict.empty q1).cache q2).requests
        = [mkRequest q2 q2.symbols] := by
  have hdist : ∀ s1 s2, '_' ∉ s1.data → '_' ∉ s2.data →
      composeKey q1 s1 ≠ composeKey q2 s2 := by
    intro s1 s2 h1 h2 heq
    exact hend ((composeKey_symbol_end_inj q1 q2 s1 s2 hex hst h1 h2 heq).2)
  refine ⟨fun s1 s2 h1 h2 => ⟨hdist s1 s2 h1 h2, ?_⟩, ?_⟩
  · rw [getKey_eq_composeKey, getKey_eq_composeKey]
    exact hdist s1 s2 h1 h2
  · have hm1 : missOf (JsDict.empty : JsDict α) q1 = q1.symbols := by
      rw [missOf]
      apply List.filter_eq_self.mpr
      intro s _
      rfl
    have hq1ne : q1.symbols ≠ [] := hsym ▸ hne
    have hm1ne : missOf (JsDict.empty : JsDict α) q1 ≠ [] := by
      rw [hm1]
      exact hq1ne
    have hmiss2 : missOf (fetchCandles provider JsDict.empty q1).cache q2
        = q2.symbols := by
      rw [missOf]
      apply List.filter_eq_self.mpr
      intro s hs
      have hget := fetchCandles_cache_get_of_ok provider JsDict.empty q1 entries
        hm1ne hok (composeKey q2 s)
      rw [hget]
      have hnone : lookupLast
          (entries.map fun p => (composeKey q1 p.1, p.2)) (composeKey q2 s)
            = none := by
        apply lookupLast_mapped_eq_none
        intro s' hs' heq
        exact hdist s' s (hfree s' (hdom s' hs')) (hfree s (hsym ▸ hs)) heq
      rw [hnone]
      rfl
    rw [fetchCandles_requests_eq, hmiss2, if_neg hne]

theorem c6_end_field_cache_independent_witness :
    let q1 : Query := ⟨"binance", "1d", "2020-01-01", "2021-01-01", ["eth-btc"]⟩
    let q2 : Query := ⟨"binance", "1d", "2020-01-01", "2021-01-02", ["eth-btc"]⟩
    let provider : FetchRequest → Except Unit (List (String × Nat)) :=
      fun _ => .ok [("eth-btc", 42)]
    (fetchCandles provider (fetchCandles provider JsDict.empty q1).cache
        q2).requests
      = [mkRequest q2 ["eth-btc"]] := by
  intro q1 q2 provider
  exact (c6_end_field_cache_independent provider provider q1 q2
      [("eth-btc", 42)] rfl rfl rfl rfl (by decide) (by decide) (by decide)
      rfl (by decide)).2

/-- Does a character match the regex class `[A-Z]` used in
`camelToSnakeReplacer`'s `/([A-Z])/g`?  (JS regex letter classes are
ASCII-only.) -/
def matchesUpper (c : Char) : Bool := 65 ≤ c.toNat && c.toNat ≤ 90

/-- Does a character match the regex class `\w` (`[A-Za-z0-9_]`) used in
`snakeToCamelReviver`'s `/(_\w)/g`? -/
def matchesWord (c : Char) : Bool :=
  (65 ≤ c.toNat && c.toNat ≤ 90) || (97 ≤ c.toNat && c.toNat ≤ 122)
    || (48 ≤ c.toNat && c.toNat ≤ 57) || c.toNat == 95

/-- `objKey.replace(/([A-Z])/g, '_$1')` on the key's characters: an
underscore is inserted before every ASCII upper-case letter. -/
def insertUnderscores : List Char → List Char
  | [] => []
  | c :: cs =>
      if matchesUpper c then '_' :: c :: insertUnderscores cs
      else c :: insertUnderscores cs

/-- JS `String.prototype.toLowerCase`, which performs full Unicode lowercase
mapping.  It is embedded here on the basic-latin and latin-1 blocks: the
ASCII letters `A`–`Z` (U+0041–U+005A) map down by 32, and so do the latin-1
uppercase letters `À`–`Þ` (U+00C0–U+00DE) except the multiplication sign `×`
(U+00D7), exactly as in Unicode.  Outside these blocks the embedding is the
identity, and every key in the theorems below is confined to these blocks,
where the embedding agrees with JS character for character. -/
def jsToLowerChar (c : Char) : Char :=
  if 65 ≤ c.toNat ∧ c.toNat ≤ 90 then Char.ofNat (c.toNat + 32)
  else if 192 ≤ c.toNat ∧ c.toNat ≤ 222 ∧ c.toNat ≠ 215 then
    Char.ofNat (c.toNat + 32)
  else c

/-- `objKey.replace(/([A-Z])/g, '_$1').toLowerCase()`, the key rewrite of
`camelToSnakeReplacer`. -/
def camelToSnakeKey (s : String) : String :=
  ⟨(insertUnderscores s.data).map jsToLowerChar⟩

/-- `objKey.replace(/(_\w)/g, (k) => k[1].toUpperCase())` on the key's
characters: regex scanning is left-to-right and non-overlapping, so each
matched `_w` pair is consumed together and replaced by the upper-cased
second character; an underscore not followed by a word character stays.
The character handed to `toUpperCase` always matched `\w`, hence is ASCII,
where JS `toUpperCase` and `Char.toUpper` agree exactly. -/
def upcaseAfterUnderscore : List Char → List Char
  | '_' :: c2 :: rest =>
      if matchesWord c2 then c2.toUpper :: upcaseAfterUnderscore rest
      else '_' :: upcaseAfterUnderscore (c2 :: rest)
  | c :: cs => c :: upcaseAfterUnderscore cs
  | [] => []

/-- The key rewrite of `snakeToCamelReviver`. -/
def snakeToCamelKey (s : String) : String := ⟨upcaseAfterUnderscore s.data⟩

mutual
/-- A JSON value tree as handled by `JSON.stringify`/`JSON.parse` in
`fetchJson`: null, booleans, numbers (payload modelled as `Int`; both hooks
pass numbers through untouched), strings, arrays and objects. -/
inductive Json where
  | null : Json
  | boolean : Bool → Json
  | number : Int → Json
  | string : String → Json
  | array : JsonArray → Json
  | object : JsonObject → Json

/-- The elements of a JSON array, in order. -/
inductive JsonArray where
  | nil : JsonArray
  | cons : Json → JsonArray → JsonArray

/-- The entries of a JSON object, in property order. -/
inductive JsonObject where
  | nil : JsonObject
  | cons : String → Json → JsonObject → JsonObject
end

mutual
/-- Effect of `JSON.stringify(value, camelToSnakeReplacer)` on the value
tree: the replacer rebuilds every non-array object with each key passed
through `.replace(/([A-Z])/g, '_$1').toLowerCase()` and `JSON.stringify`
applies it to every property and element recursively; arrays keep their
structure and primitive values are returned unchanged. -/
def camelToSnakeJson : Json → Json
  | .null => .null
  | .boolean b => .boolean b
  | .number n => .number n
  | .string s => .string s
  | .array xs => .array (camelToSnakeArray xs)
  | .object fs => .object (camelToSnakeObject fs)

/-- `camelToSnakeJson` on the elements of an array. -/
def camelToSnakeArray : JsonArray → JsonArray
  | .nil => .nil
  | .cons x xs => .cons (camelToSnakeJson x) (camelToSnakeArray xs)

/-- `camelToSnakeJson` on the entries of an object: keys rewritten, values
transformed recursively. -/
def camelToSnakeObject : JsonObject → JsonObject
  | .nil => .nil
  | .cons k v fs =>
      .cons (camelToSnakeKey k) (camelToSnakeJson v) (camelToSnakeObject fs)
end

mutual
/-- Effect of `JSON.parse(text, snakeToCamelReviver)` on the value tree:
the reviver rebuilds every non-array object with each key passed through
`.replace(/(_\w)/g, (k) => k[1].toUpperCase())`; arrays keep their structure
and primitive values are returned unchanged. -/
def snakeToCamelJson : Json → Json
  | .null => .null
  | .boolean b => .boolean b
  | .number n => .number n
  | .string s => .string s
  | .array xs => .array (snakeToCamelArray xs)
  | .object fs => .object (snakeToCamelObject fs)

/-- `snakeToCamelJson` on the elements of an array. -/
def snakeToCamelArray : JsonArray → JsonArray
  | .nil => .nil
  | .cons x xs => .cons (snakeToCamelJson x) (snakeToCamelArray xs)

/-- `snakeToCamelJson` on the entries of an object. -/
def snakeToCamelObject : JsonObject → JsonObject
  | .nil => .nil
  | .cons k v fs =>
      .cons (snakeToCamelKey k) (snakeToCamelJson v) (snakeToCamelObject fs)
end

mutual
/-- Every object key anywhere in the tree (also inside arrays) is free of
underscores — the domain on which the two key rewrites are mutually
inverse. -/
def noUnderscoreKeys : Json → Bool
  | .null => true
  | .boolean _ => true
  | .number _ => true
  | .string _ => true
  | .array xs => noUnderscoreKeysArray xs
  | .object fs => noUnderscoreKeysObject fs

/-- `noUnderscoreKeys` over an array's elements. -/
def noUnderscoreKeysArray : JsonArray → Bool
  | .nil => true
  | .cons x xs => noUnderscoreKeys x && noUnderscoreKeysArray xs

/-- `noUnderscoreKeys` over an object's entries. -/
def noUnderscoreKeysObject : JsonObject → Bool
  | .nil => true
  | .cons k v fs =>
      decide ('_' ∉ k.data) && noUnderscoreKeys v && noUnderscoreKeysObject fs
end

/-- An ASCII character (code point below 128). -/
def isAsciiChar (c : Char) : Bool := c.toNat < 128

mutual
/-- Every object key anywhere in the tree (also inside arrays) consists of
ASCII characters — the identifier alphabet of this wire's field names, on
which `jsToLowerChar` and `Char.toUpper` agree with the JS case
conversions. -/
def asciiKeys : Json → Bool
  | .null => true
  | .boolean _ => true
  | .number _ => true
  | .string _ => true
  | .array xs => asciiKeysArray xs
  | .object fs => asciiKeysObject fs

/-- `asciiKeys` over an array's elements. -/
def asciiKeysArray : JsonArray → Bool
  | .nil => true
  | .cons x xs => asciiKeys x && asciiKeysArray xs

/-- `asciiKeys` over an object's entries. -/
def asciiKeysObject : JsonObject → Bool
  | .nil => true
  | .cons k v fs => k.data.all isAsciiChar && asciiKeys v && asciiKeysObject fs
end

theorem toNat_ofNat_of_small (n : Nat) (h : n < 55296) :
    (Char.ofNat n).toNat = n := by
  rw [Char.ofNat, dif_pos (Or.inl h)]
  rfl

theorem matchesUpper_bounds (c : Char) (h : matchesUpper c = true) :
    65 ≤ c.toNat ∧ c.toNat ≤ 90 := by
  simp [matchesUpper] at h
  omega

theorem jsToLower_eq_of_not_upper_ascii (c : Char) (h : matchesUpper c = false)
    (hascii : c.toNat < 128) : jsToLowerChar c = c := by
  have h2 : ¬(65 ≤ c.toNat ∧ c.toNat ≤ 90) := by
    simp [matchesUpper] at h
    omega
  rw [jsToLowerChar, if_neg h2, if_neg (by omega)]

theorem toNat_jsToLower_of_upper (c : Char) (h : matchesUpper c = true) :
    (jsToLowerChar c).toNat = c.toNat + 32 := by
  obtain ⟨h1, h2⟩ := matchesUpper_bounds c h
  rw [jsToLowerChar, if_pos ⟨h1, h2⟩]
  exact toNat_ofNat_of_small _ (by omega)

theorem toUpper_jsToLower_of_upper (c : Char) (h : matchesUpper c = true) :
    (jsToLowerChar c).toUpper = c := by
  obtain ⟨h1, h2⟩ := matchesUpper_bounds c h
  have h3 := toNat_jsToLower_of_upper c h
  have hcond : Char.toNat (jsToLowerChar c) ≥ 97
      ∧ Char.toNat (jsToLowerChar c) ≤ 122 := by
    rw [h3]
    omega
  rw [Char.toUpper, if_pos hcond, h3]
  have h4 : c.toNat + 32 - 32 = c.toNat := by omega
  rw [h4, Char.ofNat_toNat]

theorem matchesWord_jsToLower_of_upper (c : Char) (h : matchesUpper c = true) :
    matchesWord (jsToLowerChar c) = true := by
  obtain ⟨h1, h2⟩ := matchesUpper_bounds c h
  have h3 := toNat_jsToLower_of_upper c h
  simp [matchesWord, h3]
  omega

theorem upcase_cons_of_ne_underscore (c : Char) (cs : List Char) (hc : c ≠ '_') :
    upcaseAfterUnderscore (c :: cs) = c :: upcaseAfterUnderscore cs := by
  cases cs with
  | nil => simp [upcaseAfterUnderscore, hc]
  | cons c2 rest => simp [upcaseAfterUnderscore, hc]

/-- Key-level round trip: on an underscore-free ASCII key, the reviver's
rewrite undoes the replacer's rewrite. -/
theorem upcase_map_jsToLower_insert (cs : List Char) (h : '_' ∉ cs)
    (hascii : ∀ c ∈ cs, c.toNat < 128) :
    upcaseAfterUnderscore ((insertUnderscores cs).map jsToLowerChar) = cs := by
  induction cs with
  | nil => rfl
  | cons c cs ih =>
    have hc : c ≠ '_' := fun e => h (List.mem_cons.mpr (Or.inl e.symm))
    have h' : '_' ∉ cs := fun m => h (List.mem_cons_of_mem _ m)
    have hascii' : ∀ d ∈ cs, d.toNat < 128 :=
      fun d hm => hascii d (List.mem_cons_of_mem _ hm)
    cases hu : matchesUpper c with
    | true =>
      rw [insertUnderscores, if_pos hu, List.map_cons, List.map_cons]
      have hl : jsToLowerChar '_' = '_' := by decide
      rw [hl, upcaseAfterUnderscore,
        if_pos (matchesWord_jsToLower_of_upper c hu),
        toUpper_jsToLower_of_upper c hu, ih h' hascii']
    | false =>
      rw [insertUnderscores, if_neg (by simp [hu]), List.map_cons,
        jsToLower_eq_of_not_upper_ascii c hu (hascii c (List.mem_cons_self _ _)),
        upcase_cons_of_ne_underscore c _ hc, ih h' hascii']

theorem snakeToCamelKey_camelToSnakeKey (s : String) (h : '_' ∉ s.data)
    (hascii : ∀ c ∈ s.data, c.toNat < 128) :
    snakeToCamelKey (camelToSnakeKey s) = s := by
  apply String.ext
  exact upcase_map_jsToLower_insert s.data h hascii

theorem all_isAsciiChar_mem (l : List Char) (h : l.all isAsciiChar = true) :
    ∀ c ∈ l, c.toNat < 128 := by
  intro c hc
  have h2 := List.all_eq_true.mp h c hc
  simpa [isAsciiChar] using h2

mutual
theorem snakeToCamel_camelToSnake_json : ∀ j : Json, asciiKeys j = true →
    noUnderscoreKeys j = true → snakeToCamelJson (camelToSnakeJson j) = j
  | .null, _, _ => rfl
  | .boolean _, _, _ => rfl
  | .number _, _, _ => rfl
  | .string _, _, _ => rfl
  | .array xs, ha, h => by
      have ha' : asciiKeysArray xs = true := ha
      have h' : noUnderscoreKeysArray xs = true := h
      rw [camelToSnakeJson, snakeToCamelJson,
        snakeToCamel_camelToSnake_array xs ha' h']
  | .object fs, ha, h => by
      have ha' : asciiKeysObject fs = true := ha
      have h' : noUnderscoreKeysObject fs = true := h
      rw [camelToSnakeJson, snakeToCamelJson,
        snakeToCamel_camelToSnake_object fs ha' h']

theorem snakeToCamel_camelToSnake_array : ∀ xs : JsonArray,
    asciiKeysArray xs = true → noUnderscoreKeysArray xs = true →
    snakeToCamelArray (camelToSnakeArray xs) = xs
  | .nil, _, _ => rfl
  | .cons x xs, ha, h => by
      have ha2 : (asciiKeys x && asciiKeysArray xs) = true := ha
      have h2 : (noUnderscoreKeys x && noUnderscoreKeysArray xs) = true := h
      obtain ⟨hax, haxs⟩ := Bool.and_eq_true_iff.mp ha2
      obtain ⟨hx, hxs⟩ := Bool.and_eq_true_iff.mp h2
      rw [camelToSnakeArray, snakeToCamelArray,
        snakeToCamel_camelToSnake_json x hax hx,
        snakeToCamel_camelToSnake_array xs haxs hxs]

theorem snakeToCamel_camelToSnake_object : ∀ fs : JsonObject,
    asciiKeysObject fs = true → noUnderscoreKeysObject fs = true →
    snakeToCamelObject (camelToSnakeObject fs) = fs
  | .nil, _, _ => rfl
  | .cons k v fs, ha, h => by
      have ha2 : (k.data.all isAsciiChar && asciiKeys v
          && asciiKeysObject fs) = true := ha
      have h2 : (decide ('_' ∉ k.data) && noUnderscoreKeys v
          && noUnderscoreKeysObject fs) = true := h
      obtain ⟨ha3, hafs⟩ := Bool.and_eq_true_iff.mp ha2
      obtain ⟨hak, hav⟩ := Bool.and_eq_true_iff.mp ha3
      obtain ⟨h3, hfs⟩ := Bool.and_eq_true_iff.mp h2
      obtain ⟨hk, hv⟩ := Bool.and_eq_true_iff.mp h3
      rw [camelToSnakeObject, snakeToCamelObject,
        snakeToCamelKey_camelToSnakeKey k (of_decide_eq_true hk)
          (all_isAsciiChar_mem k.data hak),
        snakeToCamel_camelToSnake_json v hav hv,
        snakeToCamel_camelToSnake_object fs hafs hfs]
end

/-- C9 counterexample to the round trip as claimed for arbitrary
underscore-free keys: the key `"À"` (U+00C0) contains no underscore, but
`toLowerCase` maps it to `"à"` (U+00E0) while the regex `[A-Z]` does not
match it, so the replacer inserts no underscore and the reviver has nothing
to upcase: serializing then parsing does not return the original object. -/
theorem c9_wire_naming_round_trip_counterexample :
    noUnderscoreKeys (Json.object (.cons "À" (.number 1) .nil)) = true ∧
      camelToSnakeKey "À" = "à" ∧
      snakeToCamelJson (camelToSnakeJson
          (Json.object (.cons "À" (.number 1) .nil)))
        = Json.object (.cons "à" (.number 1) .nil) ∧
      snakeToCamelJson (camelToSnakeJson
          (Json.object (.cons "À" (.number 1) .nil)))
        ≠ Json.object (.cons "À" (.number 1) .nil) := by
  refine ⟨by decide, by decide, rfl, ?_⟩
  intro h
  have hr : snakeToCamelJson (camelToSnakeJson
      (Json.object (.cons "À" (.number 1) .nil)))
        = Json.object (.cons "à" (.number 1) .nil) := rfl
  rw [hr] at h
  simp only [Json.object.injEq, JsonObject.cons.injEq] at h
  exact absurd h.1 (by decide)

/-- C9, amended to the ASCII key alphabet: the wire naming translation is a
key-level round trip.  `camelToSnakeJson` (the effect of serializing with
`camelToSnakeReplacer`) rewrites every object key — including keys of
objects nested inside arrays — keeping array structure and primitive values
unchanged; `snakeToCamelJson` (the effect of parsing with
`snakeToCamelReviver`) performs the reverse rewrite; and on every value
whose object keys are free of underscores AND consist of ASCII characters
(the identifier alphabet of this wire's field names) the composition of the
two is the identity.  The ASCII restriction is forced by
`c9_wire_naming_round_trip_counterexample`: an underscore-free non-ASCII
key such as `"À"` is lowercased by `toLowerCase` without the replacer
recording an underscore, so the reviver cannot restore it. -/
theorem c9_wire_naming_round_trip :
    (∀ x xs, camelToSnakeJson (.array (.cons x xs))
        = .array (.cons (camelToSnakeJson x) (camelToSnakeArray xs))) ∧
      (∀ n : Int, camelToSnakeJson (.number n) = .number n) ∧
      (∀ s, camelToSnakeJson (.string s) = .string s) ∧
      (∀ k v fs, camelToSnakeJson (.object (.cons k v fs))
          = .object (.cons (camelToSnakeKey k) (camelToSnakeJson v)
              (camelToSnakeObject fs))) ∧
      (∀ k v fs, snakeToCamelJson (.object (.cons k v fs))
          = .object (.cons (snakeToCamelKey k) (snakeToCamelJson v)
              (snakeToCamelObject fs))) ∧
      ∀ j, asciiKeys j = true → noUnderscoreKeys j = true →
        snakeToCamelJson (camelToSnakeJson j) = j :=
  ⟨fun _ _ => rfl, fun _ => rfl, fun _ => rfl, fun _ _ _ => rfl,
    fun _ _ _ => rfl, snakeToCamel_camelToSnake_json⟩

theorem c9_wire_naming_round_trip_witness :
    let j : Json := .object (.cons "trainingSymbols"
      (.array (.cons (.object (.cons "ethBtc" (.number 1) .nil)) .nil))
      (.cons "fitnessMetric" (.string "sharpe") .nil))
    asciiKeys j = true ∧ noUnderscoreKeys j = true ∧
      snakeToCamelJson (camelToSnakeJson j) = j :=
  ⟨by decide, by decide,
    c9_wire_naming_round_trip.2.2.2.2.2 _ (by decide) (by decide)⟩
